import Mathlib

/-!
# Verification of the SplayTreeVisualizer splay tree

Shallow embedding of the two tree implementations of this repository:

* `src/js/splay.js` — the splay-tree variant (`SplayBst`): `search`, `insert`,
  `remove`, `min`, `max`, `inOrder`, `contains`, `rotateRight`, `rotateLeft`,
  `splay`.
* `src/unnamed/part_000` — the plain-BST draft variant (`splayBst`): descent
  based `insert`, successor-replacement `remove`, and the same rotation/splay
  code (whose splay is not used by that variant's insert/remove).

Modelling conventions:

* A JavaScript `Node {key, val, left, right}` / `null` pair of a subtree slot
  is the inductive `STree` below (`STree.leaf` is `null`).
* Keys are modelled as `Int`: the visualizer front end always passes
  `Number(k)` to the tree operations, so the operative key domain is numbers,
  which are totally ordered by the JavaScript `<` used in the source.
* Values are modelled as `JsVal` (number, string, or a non-scalar stand-in
  `undef`), so that the runtime scalar check of `insert` can be stated.
* The JavaScript functions mutate the structure in place; since no node is
  ever aliased from two parents, in-place relinking is faithfully modelled by
  pure functions from trees to trees.
-/

/-- A JavaScript value as far as the tree's runtime scalar check
distinguishes the values modelled here: a number, a string, a boolean,
`null`, or `undefined`. The check of the source is
`!(Number(x) || x === 0) && typeof x !== "string"`, which hinges on the
`Number(x)` coercion; booleans and `null` coerce (`Number(true) = 1`,
`Number(false) = 0`, `Number(null) = 0`) while `Number(undefined)` is `NaN`.
Other objects (arrays, dates, ...) also coerce through `Number(x)` and
behave like the booleans according to the number they coerce to; they are
not modelled separately. -/
inductive JsVal where
  | num : Int → JsVal
  | str : String → JsVal
  | boolean : Bool → JsVal
  | jsNull : JsVal
  | undef : JsVal
  deriving DecidableEq, Repr

/-- `validScalar x` is the scalar admission check of `splay.js`: `x` is
rejected when `!(Number(x) || x === 0) && typeof x !== "string"`. Case by
case: a number `n` passes (`Number(n) = n` is truthy, or `n === 0`); a
string passes (`typeof x === "string"`, whatever `Number(x)` is); `true`
passes (`Number(true) = 1` is truthy) even though it is neither a number
nor a string; `false` fails (`Number(false) = 0` is falsy and
`false !== 0`); `null` fails (`Number(null) = 0` and `null !== 0`);
`undefined` fails (`Number(undefined)` is `NaN`). -/
def validScalar : JsVal → Bool
  | .num _ => true
  | .str _ => true
  | .boolean b => b
  | .jsNull => false
  | .undef => false

/-- A binary tree of key/value nodes; `leaf` is the JavaScript `null`
child slot, `node l k v r` is a `Node` with `left = l`, `key = k`,
`val = v`, `right = r`. -/
inductive STree where
  | leaf : STree
  | node : STree → Int → JsVal → STree → STree
  deriving DecidableEq, Repr

namespace STree

/-- The `left` field of a node (`leaf` has no field; the source would fault). -/
def leftT : STree → STree
  | .leaf => .leaf
  | .node l _ _ _ => l

/-- The `right` field of a node. -/
def rightT : STree → STree
  | .leaf => .leaf
  | .node _ _ _ r => r

/-- The key of the root node, if any (`this.root.key` in the source). -/
def rootKey : STree → Option Int
  | .leaf => none
  | .node _ k _ _ => some k

/-- Number of nodes of the tree. -/
def sizeT : STree → Nat
  | .leaf => 0
  | .node l _ _ r => sizeT l + sizeT r + 1

/-- In-order traversal collecting `(key, val)` pairs, the abstraction of
`SplayBst.prototype.inOrder` (which visits `left`, the node, then `right`). -/
def toListKV : STree → List (Int × JsVal)
  | .leaf => []
  | .node l k v r => toListKV l ++ (k, v) :: toListKV r

/-- The in-order key sequence of the tree. -/
def keysOf (t : STree) : List Int := (toListKV t).map Prod.fst

/-- The BST ordering invariant, node-locally: every key of the left subtree is
strictly below the node key, every key of the right subtree strictly above,
recursively. -/
def bst : STree → Bool
  | .leaf => true
  | .node l k _ r =>
      (keysOf l).all (fun x => decide (x < k)) &&
      (keysOf r).all (fun x => decide (k < x)) &&
      bst l && bst r

/-- The tree with every value replaced by `undef`: two trees have the same
`stripVals` image exactly when they have the same structure and keys. -/
def stripVals : STree → STree
  | .leaf => .leaf
  | .node l k _ r => .node (stripVals l) k .undef (stripVals r)

/-- `SplayBst.prototype.rotateRight`: `temp = n.left; n.left = temp.right;
temp.right = n; return temp`. The source faults when `n.left` is `null`
(every call site guards this); the catch-all case is never reached below. -/
def rotateRight : STree → STree
  | .node (.node a k1 v1 b) k2 v2 c => .node a k1 v1 (.node b k2 v2 c)
  | t => t

/-- `SplayBst.prototype.rotateLeft`, the mirror image of `rotateRight`. -/
def rotateLeft : STree → STree
  | .node a k1 v1 (.node b k2 v2 c) => .node (.node a k1 v1 b) k2 v2 c
  | t => t

/-- The common tail of the `key < n.key` branch of `splayRecursive`:
`if (n.left === null) return n; else return this.rotateRight(n);`. -/
def finishR (n : STree) : STree :=
  if leftT n = .leaf then n else rotateRight n

/-- The common tail of the `key > n.key` branch of `splayRecursive`:
`if (n.right === null) return n; else return this.rotateLeft(n);`. -/
def finishL (n : STree) : STree :=
  if rightT n = .leaf then n else rotateLeft n

/-- The zig-zag (left-right) relinking of `splayRecursive`: after
`n.left.right = splayRecursive(n.left.right, key)` produced `s`, the source
does `if (n.left.right !== null) n.left = this.rotateLeft(n.left)`. -/
def zigZagL (ll : STree) (lk : Int) (lv : JsVal) (s : STree) : STree :=
  if s = .leaf then .node ll lk lv s else rotateLeft (.node ll lk lv s)

/-- The zig-zag (right-left) relinking of `splayRecursive`: after
`n.right.left = splayRecursive(n.right.left, key)` produced `s`, the source
does `if (n.right.left !== null) n.right = this.rotateRight(n.right)`. -/
def zigZagR (s : STree) (rk : Int) (rv : JsVal) (rr : STree) : STree :=
  if s = .leaf then .node s rk rv rr else rotateRight (.node s rk rv rr)

/-- `splayRecursive(n, key)` of `SplayBst.prototype.splay` (the identical
function also appears in the `part_000` draft). Brings the node with `key`,
or the last node visited on a failed search, to the root of the subtree by
zig / zig-zig / zig-zag rotations along the search path. -/
def splayRec (key : Int) : STree → STree
  | .leaf => .leaf
  | .node l k v r =>
    if key < k then
      match l with
      | .leaf => .node l k v r
      | .node ll lk lv lr =>
        if key < lk then
          finishR (rotateRight (.node (.node (splayRec key ll) lk lv lr) k v r))
        else if lk < key then
          finishR (.node (zigZagL ll lk lv (splayRec key lr)) k v r)
        else
          finishR (.node (.node ll lk lv lr) k v r)
    else if k < key then
      match r with
      | .leaf => .node l k v r
      | .node rl rk rv rr =>
        if rk < key then
          finishL (rotateLeft (.node l k v (.node rl rk rv (splayRec key rr))))
        else if key < rk then
          finishL (.node l k v (zigZagR (splayRec key rl) rk rv rr))
        else
          finishL (.node l k v (.node rl rk rv rr))
    else .node l k v r

/-- `SplayBst.prototype.search`: empty tree (or non-scalar key, impossible
for `Int` keys) returns `null`; otherwise splay and return the root node
(`this.root`, i.e. the whole re-rooted tree) when its key matches, else
`null`. The second component is the tree left behind (`this.root`). -/
def searchS (k : Int) (t : STree) : Option STree × STree :=
  match t with
  | .leaf => (none, .leaf)
  | .node _ _ _ _ =>
    match splayRec k t with
    | .leaf => (none, .leaf)
    | .node l rk rv r =>
        (if rk = k then some (.node l rk rv r) else none, .node l rk rv r)

/-- `SplayBst.prototype.insert` for an already-validated numeric key: empty
tree gets a fresh root; otherwise splay `k` to the top and either hang the
old root to the right (`root.key > k`), to the left (`root.key < k`), or
overwrite the value (`root.key === k`). -/
def insertS (k : Int) (v : JsVal) (t : STree) : STree :=
  match t with
  | .leaf => .node .leaf k v .leaf
  | .node _ _ _ _ =>
    match splayRec k t with
    | .leaf => .leaf
    | .node l rk rv r =>
      if k < rk then .node l k v (.node .leaf rk rv r)
      else if rk < k then .node (.node l rk rv .leaf) k v r
      else .node l rk v r

/-- `SplayBst.prototype.remove`: splay `k`; if the root matches, drop it and
rejoin: no children → empty; empty left → right child; otherwise detach the
right subtree, splay the left subtree around `k` (whose keys are all below
`k`), and reattach the detached right subtree as the new root's right child
(`this.root.right = temp` overwrites whatever right child the second splay
left there). -/
def removeS (k : Int) (t : STree) : STree :=
  match t with
  | .leaf => .leaf
  | .node _ _ _ _ =>
    match splayRec k t with
    | .leaf => .leaf
    | .node l rk rv r =>
      if rk = k then
        match l, r with
        | .leaf, .leaf => .leaf
        | .leaf, .node a b c d => .node a b c d
        | .node a b c d, _ =>
          match splayRec k (.node a b c d) with
          | .leaf => .leaf
          | .node l2 m mv _ => .node l2 m mv r
      else .node l rk rv r

/-- `containsRecursive` of `SplayBst.prototype.contains`. The source checks
`n.key === k` at the current node but discards the results of both recursive
calls and falls through (returning `undefined`, which is falsy), so the
function is truthy exactly when the argument node itself holds `k`. -/
def containsRecursive (k : Int) : STree → Bool
  | .leaf => false
  | .node _ nk _ _ => nk = k

/-- `SplayBst.prototype.contains`: `false` on the empty tree, otherwise
`containsRecursive(this.root) ? true : false`. Performs no splay and no
mutation. -/
def containsS (k : Int) (t : STree) : Bool :=
  match t with
  | .leaf => false
  | .node _ _ _ _ => containsRecursive k t

/-- `minRecursive`: follow `left` links until there is no left child and
return that node. Only ever called on a non-`null` node in the source. -/
def minRecursive : STree → STree
  | .leaf => .leaf
  | .node .leaf k v r => .node .leaf k v r
  | .node (.node a b c d) _ _ _ => minRecursive (.node a b c d)

/-- `maxRecursive`: follow `right` links until there is no right child. -/
def maxRecursive : STree → STree
  | .leaf => .leaf
  | .node l k v .leaf => .node l k v .leaf
  | .node _ _ _ (.node a b c d) => maxRecursive (.node a b c d)

/-- `SplayBst.prototype.min`: `null` if the tree is empty; otherwise descend
from the supplied node if one was given (`n instanceof Node`; passing
`null`/nothing means none was given) else from the root. Pure, no splay. -/
def minS (n : STree) (t : STree) : Option STree :=
  match t with
  | .leaf => none
  | .node _ _ _ _ =>
    match n with
    | .node a b c d => some (minRecursive (.node a b c d))
    | .leaf => some (minRecursive t)

/-- `SplayBst.prototype.max`, mirror of `minS`. -/
def maxS (n : STree) (t : STree) : Option STree :=
  match t with
  | .leaf => none
  | .node _ _ _ _ =>
    match n with
    | .node a b c d => some (maxRecursive (.node a b c d))
    | .leaf => some (maxRecursive t)

/-- `SplayBst.prototype.insert` including its runtime scalar check
`if ((!(Number(k) || k === 0) && typeof k !== "string") || (!(Number(v) ||
v === 0) && typeof v !== "string")) throw new Error("Invalid insert")`,
which runs before the tree is touched. A thrown error is `Except.error`; the
tree is only replaced on `Except.ok`. Non-numeric keys that pass the check
(strings, `true`) fall outside the integer-key tree model and are left as a
no-op branch here; none of the properties below depends on that branch (the
visualizer only passes numeric keys), and the counterexample for the
error-behaviour claim uses a numeric key with a non-scalar value, which goes
through the real `insertS` path. -/
def insertJs (k v : JsVal) (t : STree) : Except String STree :=
  if ¬ validScalar k ∨ ¬ validScalar v then .error "Invalid insert"
  else
    match k with
    | .num n => .ok (insertS n v t)
    | _ => .ok t

/-- Insertion into a (sorted) association list: the list-level model of what
both tree variants do to their in-order traversal. -/
def listInsert (k : Int) (v : JsVal) : List (Int × JsVal) → List (Int × JsVal)
  | [] => [(k, v)]
  | (a, b) :: rest =>
    if k < a then (k, v) :: (a, b) :: rest
    else if a < k then (a, b) :: listInsert k v rest
    else (k, v) :: rest

/-- Removal from an association list: drop every pair whose key is `k` (on a
duplicate-free list, at most one). -/
def listRemove (k : Int) (xs : List (Int × JsVal)) : List (Int × JsVal) :=
  xs.filter (fun p => p.1 ≠ k)

/-- `insertRecursive` of the plain-BST draft (`src/unnamed/part_000`):
descend by key comparison, create the node at a `null` slot, overwrite the
value on an exact match. -/
def insertRec (key : Int) (val : JsVal) : STree → STree
  | .leaf => .node .leaf key val .leaf
  | .node l k v r =>
    if key < k then .node (insertRec key val l) k v r
    else if k < key then .node l k v (insertRec key val r)
    else .node l k val r

/-- `splayBst.prototype.insert` of the draft: a `null` root becomes a fresh
node (the `k === null || v === null` guard of the source cannot fire for the
scalar inputs modelled here), otherwise `insertRecursive` from the root. -/
def insertP (key : Int) (val : JsVal) (t : STree) : STree :=
  match t with
  | .leaf => .node .leaf key val .leaf
  | .node _ _ _ _ => insertRec key val t

/-- Key and value of the leftmost node, as `minRecursive` finds them
(meaningless on `leaf`, where the source would fault; never used there). -/
def minKV : STree → Int × JsVal
  | .leaf => (0, .undef)
  | .node .leaf k v _ => (k, v)
  | .node (.node a b c d) _ _ _ => minKV (.node a b c d)

/-- `removeRecursive` of the plain-BST draft: descend to the key; a leaf
node disappears, a single-child node is replaced by its child, a two-child
node copies its in-order successor (`this.min(cNode.right)`) into itself and
removes the successor from the right subtree. -/
def removeRec (key : Int) : STree → STree
  | .leaf => .leaf
  | .node l k v r =>
    if key < k then .node (removeRec key l) k v r
    else if k < key then .node l k v (removeRec key r)
    else
      if l = .leaf ∧ r = .leaf then .leaf
      else if r = .leaf then l
      else if l = .leaf then r
      else .node l (minKV r).1 (minKV r).2 (removeRec (minKV r).1 r)

/-- `splayBst.prototype.remove` of the draft: no-op on an empty tree,
otherwise `this.root = removeRecursive(this.root, k)`. -/
def removeP (key : Int) (t : STree) : STree :=
  match t with
  | .leaf => .leaf
  | .node _ _ _ _ => removeRec key t

/-- A public mutating operation: `insert(k, v)` or `remove(k)` with a
numeric key. -/
inductive Op where
  | ins : Int → JsVal → Op
  | del : Int → Op
  deriving DecidableEq, Repr

/-- An operation is valid when its payload passes the scalar check (keys are
numeric by construction). -/
def opValid : Op → Bool
  | .ins _ v => validScalar v
  | .del _ => true

/-- One step of the splay-tree variant (`SplayBst` of `src/js/splay.js`):
a thrown `insert` leaves the tree unchanged. -/
def applyS : Op → STree → STree
  | .ins k v, t =>
    match insertJs (.num k) v t with
    | .ok t' => t'
    | .error _ => t
  | .del k, t => removeS k t

/-- One step of the plain-BST draft variant (`splayBst` of
`src/unnamed/part_000`). -/
def applyP : Op → STree → STree
  | .ins k v, t => insertP k v t
  | .del k, t => removeP k t

/-- Run the splay-tree variant from the empty tree. -/
def runS (ops : List Op) : STree :=
  ops.foldl (fun t op => applyS op t) .leaf

/-- Run the plain-BST draft variant from the empty tree. -/
def runP (ops : List Op) : STree :=
  ops.foldl (fun t op => applyP op t) .leaf

/-- The three-insert tree of the spec's concrete scenario:
insert (10,"a"), (4,"b"), (12,"c") into the empty splay tree. -/
def scenarioTree : STree :=
  insertS 12 (.str "c") (insertS 4 (.str "b") (insertS 10 (.str "a") .leaf))

@[simp] lemma toListKV_leaf : toListKV .leaf = [] := rfl

@[simp] lemma toListKV_node (l : STree) (k : Int) (v : JsVal) (r : STree) :
    toListKV (.node l k v r) = toListKV l ++ (k, v) :: toListKV r := rfl

@[simp] lemma keysOf_leaf : keysOf .leaf = [] := rfl

@[simp] lemma keysOf_node (l : STree) (k : Int) (v : JsVal) (r : STree) :
    keysOf (.node l k v r) = keysOf l ++ k :: keysOf r := by
  simp [keysOf]

lemma toListKV_eq_nil_iff (t : STree) : toListKV t = [] ↔ t = .leaf := by
  cases t <;> simp

lemma keysOf_eq_nil_iff (t : STree) : keysOf t = [] ↔ t = .leaf := by
  cases t <;> simp

@[simp] lemma bst_leaf : bst .leaf = true := rfl

lemma bst_node_iff (l : STree) (k : Int) (v : JsVal) (r : STree) :
    bst (.node l k v r) = true ↔
      (∀ x ∈ keysOf l, x < k) ∧ (∀ x ∈ keysOf r, k < x) ∧
      bst l = true ∧ bst r = true := by
  simp [bst, List.all_eq_true, and_assoc]

lemma toListKV_finishR (s : STree) (k : Int) (v : JsVal) (r : STree) :
    toListKV (finishR (.node s k v r)) = toListKV s ++ (k, v) :: toListKV r := by
  cases s <;> simp [finishR, leftT, rotateRight]

lemma toListKV_finishL (l : STree) (k : Int) (v : JsVal) (s : STree) :
    toListKV (finishL (.node l k v s)) = toListKV l ++ (k, v) :: toListKV s := by
  cases s <;> simp [finishL, rightT, rotateLeft]

lemma toListKV_zigZagL (ll : STree) (lk : Int) (lv : JsVal) (s : STree) :
    toListKV (zigZagL ll lk lv s) = toListKV ll ++ (lk, lv) :: toListKV s := by
  cases s <;> simp [zigZagL, rotateLeft]

lemma toListKV_zigZagR (s : STree) (rk : Int) (rv : JsVal) (rr : STree) :
    toListKV (zigZagR s rk rv rr) = toListKV s ++ (rk, rv) :: toListKV rr := by
  cases s <;> simp [zigZagR, rotateRight]

/-- Splaying is a sequence of rotations, so it preserves the in-order
traversal of the subtree exactly. -/
lemma splay_toListKV (key : Int) (t : STree) :
    toListKV (splayRec key t) = toListKV t := by
  induction t using splayRec.induct key with
  | case1 => rfl
  | case2 k v r h => rw [splayRec.eq_def]; simp [h]
  | case3 k v r h ll lk lv lr h2 ih =>
      rw [splayRec.eq_def]; simp [h, h2, rotateRight, toListKV_finishR, ih]
  | case4 k v r h ll lk lv lr h2 h3 ih =>
      rw [splayRec.eq_def]; simp [h, h2, h3, toListKV_finishR, toListKV_zigZagL, ih]
  | case5 k v r h ll lk lv lr h2 h3 =>
      rw [splayRec.eq_def]; simp [h, h2, h3, toListKV_finishR]
  | case6 l k v h h2 => rw [splayRec.eq_def]; simp [h, h2]
  | case7 l k v h h2 rl rk rv rr h3 ih =>
      rw [splayRec.eq_def]; simp [h, h2, h3, rotateLeft, toListKV_finishL, ih]
  | case8 l k v h h2 rl rk rv rr h3 h4 ih =>
      rw [splayRec.eq_def]; simp [h, h2, h3, h4, toListKV_finishL, toListKV_zigZagR, ih]
  | case9 l k v h h2 rl rk rv rr h3 h4 =>
      rw [splayRec.eq_def]; simp [h, h2, h3, h4, toListKV_finishL]
  | case10 l k v r h h2 => rw [splayRec.eq_def]; simp [h, h2]

lemma splay_keysOf (key : Int) (t : STree) :
    keysOf (splayRec key t) = keysOf t := by
  simp [keysOf, splay_toListKV]

lemma splay_ne_leaf (key : Int) (t : STree) (h : t ≠ .leaf) :
    splayRec key t ≠ .leaf := by
  intro hcon
  apply h
  rw [← toListKV_eq_nil_iff, ← splay_toListKV key t, hcon, toListKV_leaf]

@[simp] lemma splayRec_leaf (key : Int) : splayRec key .leaf = .leaf := rfl

/-- The node-local BST invariant is equivalent to the in-order key sequence
being strictly ascending. -/
lemma bst_iff_pairwise (t : STree) :
    bst t = true ↔ (keysOf t).Pairwise (· < ·) := by
  induction t with
  | leaf => simp
  | node l k v r ihl ihr =>
      rw [bst_node_iff, ihl, ihr]
      simp only [keysOf_node, List.pairwise_append, List.pairwise_cons,
        List.mem_cons]
      constructor
      · rintro ⟨h1, h2, h3, h4⟩
        refine ⟨h3, ⟨h2, h4⟩, fun a ha b hb => ?_⟩
        rcases hb with hb | hb
        · rw [hb]; exact h1 a ha
        · exact lt_trans (h1 a ha) (h2 b hb)
      · rintro ⟨p1, ⟨p2, p3⟩, p4⟩
        exact ⟨fun a ha => p4 a ha k (Or.inl rfl), p2, p1, p3⟩

lemma bst_nodup_keys (t : STree) (h : bst t = true) : (keysOf t).Nodup := by
  rw [bst_iff_pairwise] at h
  exact h.imp (fun hab => ne_of_lt hab)

lemma rootKey_mem (l : STree) (k : Int) (v : JsVal) (r : STree) :
    k ∈ keysOf (.node l k v r) := by simp

section SplayEquations

variable {key k lk rk : Int} {v lv rv : JsVal} {l r ll lr rl rr A B : STree}
variable {a : Int} {av : JsVal}

lemma finishR_leafL : finishR (.node .leaf k v r) = .node .leaf k v r := by
  simp [finishR, leftT]

lemma finishR_nodeL :
    finishR (.node (.node A a av B) k v r) = .node A a av (.node B k v r) := by
  simp [finishR, leftT, rotateRight]

lemma finishL_leafR : finishL (.node l k v .leaf) = .node l k v .leaf := by
  simp [finishL, rightT]

lemma finishL_nodeR :
    finishL (.node l k v (.node A a av B)) = .node (.node l k v A) a av B := by
  simp [finishL, rightT, rotateLeft]

lemma zigZagL_leaf : zigZagL ll lk lv .leaf = .node ll lk lv .leaf := by
  simp [zigZagL]

lemma zigZagL_node :
    zigZagL ll lk lv (.node A a av B) = .node (.node ll lk lv A) a av B := by
  simp [zigZagL, rotateLeft]

lemma zigZagR_leaf : zigZagR .leaf rk rv rr = .node .leaf rk rv rr := by
  simp [zigZagR]

lemma zigZagR_node :
    zigZagR (.node A a av B) rk rv rr = .node A a av (.node B rk rv rr) := by
  simp [zigZagR, rotateRight]

lemma splayRec_ltLeaf (h : key < k) :
    splayRec key (.node .leaf k v r) = .node .leaf k v r := by
  rw [splayRec.eq_def]; simp [h]

lemma splayRec_zigzigL (h : key < k) (h2 : key < lk) :
    splayRec key (.node (.node ll lk lv lr) k v r) =
      finishR (rotateRight (.node (.node (splayRec key ll) lk lv lr) k v r)) := by
  rw [splayRec.eq_def]; simp [h, h2]

lemma splayRec_zigzagL (h : key < k) (h2 : ¬ key < lk) (h3 : lk < key) :
    splayRec key (.node (.node ll lk lv lr) k v r) =
      finishR (.node (zigZagL ll lk lv (splayRec key lr)) k v r) := by
  rw [splayRec.eq_def]; simp [h, h2, h3]

lemma splayRec_eqL (h : key < k) (h2 : ¬ key < lk) (h3 : ¬ lk < key) :
    splayRec key (.node (.node ll lk lv lr) k v r) =
      finishR (.node (.node ll lk lv lr) k v r) := by
  rw [splayRec.eq_def]; simp [h, h2, h3]

lemma splayRec_gtLeaf (h : ¬ key < k) (h2 : k < key) :
    splayRec key (.node l k v .leaf) = .node l k v .leaf := by
  rw [splayRec.eq_def]; simp [h, h2]

lemma splayRec_zigzigR (h : ¬ key < k) (h2 : k < key) (h3 : rk < key) :
    splayRec key (.node l k v (.node rl rk rv rr)) =
      finishL (rotateLeft (.node l k v (.node rl rk rv (splayRec key rr)))) := by
  rw [splayRec.eq_def]; simp [h, h2, h3]

lemma splayRec_zigzagR (h : ¬ key < k) (h2 : k < key) (h3 : ¬ rk < key)
    (h4 : key < rk) :
    splayRec key (.node l k v (.node rl rk rv rr)) =
      finishL (.node l k v (zigZagR (splayRec key rl) rk rv rr)) := by
  rw [splayRec.eq_def]; simp [h, h2, h3, h4]

lemma splayRec_eqR (h : ¬ key < k) (h2 : k < key) (h3 : ¬ rk < key)
    (h4 : ¬ key < rk) :
    splayRec key (.node l k v (.node rl rk rv rr)) =
      finishL (.node l k v (.node rl rk rv rr)) := by
  rw [splayRec.eq_def]; simp [h, h2, h3, h4]

lemma splayRec_eqRoot (h : ¬ key < k) (h2 : ¬ k < key) :
    splayRec key (.node l k v r) = .node l k v r := by
  rw [splayRec.eq_def]; simp [h, h2]

end SplayEquations

/-- Splay postcondition on a non-empty BST: the result is a node whose key is
the searched key when present, and in any case no key of the tree lies
strictly between the new root key and the searched key (the root is a nearest
neighbour reached on the search path). -/
lemma splay_nearest (key : Int) (t : STree) :
    bst t = true → t ≠ .leaf →
    ∃ l a av r, splayRec key t = .node l a av r ∧
      (key ∈ keysOf t → a = key) ∧
      ∀ x ∈ keysOf t, ¬(min a key < x ∧ x < max a key) := by
  induction t using splayRec.induct key with
  | case1 =>
      intro _ hne; exact absurd rfl hne
  | case2 k v r h =>
      intro hbst _
      rw [bst_node_iff] at hbst
      obtain ⟨_, h2, _, _⟩ := hbst
      refine ⟨.leaf, k, v, r, splayRec_ltLeaf h, ?_, ?_⟩
      · intro hk
        simp only [keysOf_node, keysOf_leaf, List.nil_append,
          List.mem_cons] at hk
        rcases hk with hk | hk
        · omega
        · have := h2 key hk; omega
      · intro x hx
        simp only [keysOf_node, keysOf_leaf, List.nil_append,
          List.mem_cons] at hx
        rcases hx with hx | hx
        · omega
        · have := h2 x hx; omega
  | case3 k v r h ll lk lv lr h2 ih =>
      intro hbst _
      rw [bst_node_iff] at hbst
      obtain ⟨hL, hR, hbl, hbr⟩ := hbst
      rw [bst_node_iff] at hbl
      obtain ⟨hll, hlr, hbll, hblr⟩ := hbl
      have hlkk : lk < k := hL lk (rootKey_mem ll lk lv lr)
      rw [splayRec_zigzigL h h2]
      by_cases hll0 : ll = .leaf
      · subst hll0
        rw [splayRec_leaf, rotateRight, finishR_leafL]
        refine ⟨.leaf, lk, lv, .node lr k v r, rfl, ?_, ?_⟩
        · intro hk
          simp only [keysOf_node, keysOf_leaf, List.nil_append, List.mem_cons,
            List.mem_append] at hk
          rcases hk with (hk | hk) | hk | hk
          · omega
          · have := hlr key hk; omega
          · omega
          · have := hR key hk; omega
        · intro x hx
          simp only [keysOf_node, keysOf_leaf, List.nil_append, List.mem_cons,
            List.mem_append] at hx
          rcases hx with (hx | hx) | hx | hx
          · omega
          · have := hlr x hx; omega
          · omega
          · have := hR x hx; omega
      · obtain ⟨A, a, av, B, hs, hfound, hnear⟩ := ih hbll hll0
        have hamem : a ∈ keysOf ll := by
          have : a ∈ keysOf (splayRec key ll) := by
            rw [hs]; exact rootKey_mem A a av B
          rwa [splay_keysOf] at this
        have halk : a < lk := hll a hamem
        rw [hs, rotateRight, finishR_nodeL]
        refine ⟨A, a, av, .node B lk lv (.node lr k v r), rfl, ?_, ?_⟩
        · intro hk
          simp only [keysOf_node, List.mem_cons, List.mem_append] at hk
          rcases hk with (hk | hk | hk) | hk | hk
          · exact hfound hk
          · omega
          · have := hlr key hk; omega
          · omega
          · have := hR key hk; omega
        · intro x hx
          simp only [keysOf_node, List.mem_cons, List.mem_append] at hx
          rcases hx with (hx | hx | hx) | hx | hx
          · exact hnear x hx
          · omega
          · have := hlr x hx; omega
          · omega
          · have := hR x hx; omega
  | case4 k v r h ll lk lv lr h2 h3 ih =>
      intro hbst _
      rw [bst_node_iff] at hbst
      obtain ⟨hL, hR, hbl, hbr⟩ := hbst
      rw [bst_node_iff] at hbl
      obtain ⟨hll, hlr, hbll, hblr⟩ := hbl
      have hlkk : lk < k := hL lk (rootKey_mem ll lk lv lr)
      rw [splayRec_zigzagL h h2 h3]
      by_cases hlr0 : lr = .leaf
      · subst hlr0
        rw [splayRec_leaf, zigZagL_leaf, finishR_nodeL]
        refine ⟨ll, lk, lv, .node .leaf k v r, rfl, ?_, ?_⟩
        · intro hk
          simp only [keysOf_node, keysOf_leaf, List.nil_append, List.mem_cons,
            List.mem_append, List.not_mem_nil, or_false] at hk
          rcases hk with (hk | hk) | hk | hk
          · have := hll key hk; omega
          · omega
          · omega
          · have := hR key hk; omega
        · intro x hx
          simp only [keysOf_node, keysOf_leaf, List.nil_append, List.mem_cons,
            List.mem_append, List.not_mem_nil, or_false] at hx
          rcases hx with (hx | hx) | hx | hx
          · have := hll x hx; omega
          · omega
          · omega
          · have := hR x hx; omega
      · obtain ⟨A, a, av, B, hs, hfound, hnear⟩ := ih hblr hlr0
        have hamem : a ∈ keysOf lr := by
          have : a ∈ keysOf (splayRec key lr) := by
            rw [hs]; exact rootKey_mem A a av B
          rwa [splay_keysOf] at this
        have halk : lk < a := hlr a hamem
        have hak : a < k := hL a (by simp [hamem])
        rw [hs, zigZagL_node, finishR_nodeL]
        refine ⟨.node ll lk lv A, a, av, .node B k v r, rfl, ?_, ?_⟩
        · intro hk
          simp only [keysOf_node, List.mem_cons, List.mem_append] at hk
          rcases hk with (hk | hk | hk) | hk | hk
          · have := hll key hk; omega
          · omega
          · exact hfound hk
          · omega
          · have := hR key hk; omega
        · intro x hx
          simp only [keysOf_node, List.mem_cons, List.mem_append] at hx
          rcases hx with (hx | hx | hx) | hx | hx
          · have := hll x hx; omega
          · omega
          · exact hnear x hx
          · omega
          · have := hR x hx; omega
  | case5 k v r h ll lk lv lr h2 h3 =>
      intro hbst _
      rw [bst_node_iff] at hbst
      obtain ⟨hL, hR, hbl, hbr⟩ := hbst
      rw [bst_node_iff] at hbl
      obtain ⟨hll, hlr, hbll, hblr⟩ := hbl
      rw [splayRec_eqL h h2 h3, finishR_nodeL]
      have hlkey : lk = key := by omega
      refine ⟨ll, lk, lv, .node lr k v r, rfl, fun _ => hlkey.symm ▸ rfl, ?_⟩
      · intro x hx
        omega
  | case6 l k v h h2 =>
      intro hbst _
      rw [bst_node_iff] at hbst
      obtain ⟨h1, _, _, _⟩ := hbst
      refine ⟨l, k, v, .leaf, splayRec_gtLeaf h h2, ?_, ?_⟩
      · intro hk
        simp only [keysOf_node, keysOf_leaf, List.append_nil, List.mem_cons,
          List.mem_append, List.not_mem_nil, or_false] at hk
        rcases hk with hk | hk
        · have := h1 key hk; omega
        · omega
      · intro x hx
        simp only [keysOf_node, keysOf_leaf, List.append_nil, List.mem_cons,
          List.mem_append, List.not_mem_nil, or_false] at hx
        rcases hx with hx | hx
        · have := h1 x hx; omega
        · omega
  | case7 l k v h h2 rl rk rv rr h3 ih =>
      intro hbst _
      rw [bst_node_iff] at hbst
      obtain ⟨hL, hR, hbl, hbr⟩ := hbst
      rw [bst_node_iff] at hbr
      obtain ⟨hrl, hrr, hbrl, hbrr⟩ := hbr
      have hrkk : k < rk := hR rk (rootKey_mem rl rk rv rr)
      rw [splayRec_zigzigR h h2 h3]
      by_cases hrr0 : rr = .leaf
      · subst hrr0
        rw [splayRec_leaf, rotateLeft, finishL_leafR]
        refine ⟨.node l k v rl, rk, rv, .leaf, rfl, ?_, ?_⟩
        · intro hk
          simp only [keysOf_node, keysOf_leaf, List.append_nil, List.mem_cons,
            List.mem_append, List.not_mem_nil, or_false] at hk
          rcases hk with hk | hk | hk | hk
          · have := hL key hk; omega
          · omega
          · have := hrl key hk; omega
          · omega
        · intro x hx
          simp only [keysOf_node, keysOf_leaf, List.append_nil, List.mem_cons,
            List.mem_append, List.not_mem_nil, or_false] at hx
          rcases hx with hx | hx | hx | hx
          · have := hL x hx; omega
          · omega
          · have := hrl x hx; omega
          · omega
      · obtain ⟨A, a, av, B, hs, hfound, hnear⟩ := ih hbrr hrr0
        have hamem : a ∈ keysOf rr := by
          have : a ∈ keysOf (splayRec key rr) := by
            rw [hs]; exact rootKey_mem A a av B
          rwa [splay_keysOf] at this
        have hark : rk < a := hrr a hamem
        rw [hs, rotateLeft, finishL_nodeR]
        refine ⟨.node (.node l k v rl) rk rv A, a, av, B, rfl, ?_, ?_⟩
        · intro hk
          simp only [keysOf_node, List.mem_cons, List.mem_append] at hk
          rcases hk with hk | hk | hk | hk | hk
          · have := hL key hk; omega
          · omega
          · have := hrl key hk; omega
          · omega
          · exact hfound hk
        · intro x hx
          simp only [keysOf_node, List.mem_cons, List.mem_append] at hx
          rcases hx with hx | hx | hx | hx | hx
          · have := hL x hx; omega
          · omega
          · have := hrl x hx; omega
          · omega
          · exact hnear x hx
  | case8 l k v h h2 rl rk rv rr h3 h4 ih =>
      intro hbst _
      rw [bst_node_iff] at hbst
      obtain ⟨hL, hR, hbl, hbr⟩ := hbst
      rw [bst_node_iff] at hbr
      obtain ⟨hrl, hrr, hbrl, hbrr⟩ := hbr
      have hrkk : k < rk := hR rk (rootKey_mem rl rk rv rr)
      rw [splayRec_zigzagR h h2 h3 h4]
      by_cases hrl0 : rl = .leaf
      · subst hrl0
        rw [splayRec_leaf, zigZagR_leaf, finishL_nodeR]
        refine ⟨.node l k v .leaf, rk, rv, rr, rfl, ?_, ?_⟩
        · intro hk
          simp only [keysOf_node, keysOf_leaf, List.nil_append, List.mem_cons,
            List.mem_append, List.not_mem_nil, or_false] at hk
          rcases hk with hk | hk | hk | hk
          · have := hL key hk; omega
          · omega
          · omega
          · have := hrr key hk; omega
        · intro x hx
          simp only [keysOf_node, keysOf_leaf, List.nil_append, List.mem_cons,
            List.mem_append, List.not_mem_nil, or_false] at hx
          rcases hx with hx | hx | hx | hx
          · have := hL x hx; omega
          · omega
          · omega
          · have := hrr x hx; omega
      · obtain ⟨A, a, av, B, hs, hfound, hnear⟩ := ih hbrl hrl0
        have hamem : a ∈ keysOf rl := by
          have : a ∈ keysOf (splayRec key rl) := by
            rw [hs]; exact rootKey_mem A a av B
          rwa [splay_keysOf] at this
        have hark : a < rk := hrl a hamem
        have hka : k < a := hR a (by simp [hamem])
        rw [hs, zigZagR_node, finishL_nodeR]
        refine ⟨.node l k v A, a, av, .node B rk rv rr, rfl, ?_, ?_⟩
        · intro hk
          simp only [keysOf_node, List.mem_cons, List.mem_append] at hk
          rcases hk with hk | hk | hk | hk | hk
          · have := hL key hk; omega
          · omega
          · exact hfound hk
          · omega
          · have := hrr key hk; omega
        · intro x hx
          simp only [keysOf_node, List.mem_cons, List.mem_append] at hx
          rcases hx with hx | hx | hx | hx | hx
          · have := hL x hx; omega
          · omega
          · exact hnear x hx
          · omega
          · have := hrr x hx; omega
  | case9 l k v h h2 rl rk rv rr h3 h4 =>
      intro hbst _
      rw [bst_node_iff] at hbst
      obtain ⟨hL, hR, hbl, hbr⟩ := hbst
      rw [splayRec_eqR h h2 h3 h4, finishL_nodeR]
      have hrkey : rk = key := by omega
      refine ⟨.node l k v rl, rk, rv, rr, rfl, fun _ => hrkey.symm ▸ rfl, ?_⟩
      · intro x hx
        omega
  | case10 l k v r h h2 =>
      intro hbst _
      have hkey : k = key := by omega
      refine ⟨l, k, v, r, splayRec_eqRoot h h2, fun _ => hkey.symm ▸ rfl, ?_⟩
      · intro x hx
        omega

/-- Splaying a non-empty BST around a key strictly above all of its keys
brings the maximum to the root and leaves the root's right child empty. -/
lemma splay_upper (key : Int) (t : STree) :
    bst t = true → (∀ x ∈ keysOf t, x < key) → t ≠ .leaf →
    ∃ A m mv, splayRec key t = .node A m mv .leaf ∧ m ∈ keysOf t ∧
      ∀ x ∈ keysOf t, x ≤ m := by
  induction t using splayRec.induct key with
  | case1 => intro _ _ hne; exact absurd rfl hne
  | case2 k v r h =>
      intro _ hub _
      have := hub k (rootKey_mem .leaf k v r); omega
  | case3 k v r h ll lk lv lr h2 ih =>
      intro _ hub _
      have := hub k (rootKey_mem (.node ll lk lv lr) k v r); omega
  | case4 k v r h ll lk lv lr h2 h3 ih =>
      intro _ hub _
      have := hub k (rootKey_mem (.node ll lk lv lr) k v r); omega
  | case5 k v r h ll lk lv lr h2 h3 =>
      intro _ hub _
      have := hub k (rootKey_mem (.node ll lk lv lr) k v r); omega
  | case6 l k v h h2 =>
      intro hbst hub _
      rw [bst_node_iff] at hbst
      obtain ⟨h1, _, _, _⟩ := hbst
      refine ⟨l, k, v, splayRec_gtLeaf h h2, rootKey_mem l k v .leaf, ?_⟩
      intro x hx
      simp only [keysOf_node, keysOf_leaf, List.append_nil, List.mem_cons,
        List.mem_append, List.not_mem_nil, or_false] at hx
      rcases hx with hx | hx
      · have := h1 x hx; omega
      · omega
  | case7 l k v h h2 rl rk rv rr h3 ih =>
      intro hbst hub _
      rw [bst_node_iff] at hbst
      obtain ⟨hL, hR, hbl, hbr⟩ := hbst
      rw [bst_node_iff] at hbr
      obtain ⟨hrl, hrr, hbrl, hbrr⟩ := hbr
      have hrkk : k < rk := hR rk (rootKey_mem rl rk rv rr)
      rw [splayRec_zigzigR h h2 h3]
      by_cases hrr0 : rr = .leaf
      · subst hrr0
        rw [splayRec_leaf, rotateLeft, finishL_leafR]
        refine ⟨.node l k v rl, rk, rv, rfl, by simp, ?_⟩
        intro x hx
        simp only [keysOf_node, keysOf_leaf, List.append_nil, List.mem_cons,
          List.mem_append, List.not_mem_nil, or_false] at hx
        rcases hx with hx | hx | hx | hx
        · have := hL x hx; omega
        · omega
        · have := hrl x hx; omega
        · omega
      · have hub_rr : ∀ x ∈ keysOf rr, x < key := by
          intro x hx
          exact hub x (by simp [hx])
        obtain ⟨A, m, mv, hs, hmmem, hmax⟩ := ih hbrr hub_rr hrr0
        rw [hs, rotateLeft, finishL_nodeR]
        have hrkm : rk < m := hrr m hmmem
        refine ⟨.node (.node l k v rl) rk rv A, m, mv, rfl, by simp [hmmem], ?_⟩
        intro x hx
        simp only [keysOf_node, List.mem_cons, List.mem_append] at hx
        rcases hx with hx | hx | hx | hx | hx
        · have := hL x hx; omega
        · omega
        · have := hrl x hx; omega
        · omega
        · exact hmax x hx
  | case8 l k v h h2 rl rk rv rr h3 h4 ih =>
      intro _ hub _
      have : rk < key := hub rk (by simp)
      omega
  | case9 l k v h h2 rl rk rv rr h3 h4 =>
      intro _ hub _
      have : rk < key := hub rk (by simp)
      omega
  | case10 l k v r h h2 =>
      intro _ hub _
      have := hub k (rootKey_mem l k v r); omega

section ListModel

variable {k a : Int} {v b w : JsVal} {L M : List (Int × JsVal)}

lemma listInsert_append_lt (h : k < a) (L M : List (Int × JsVal)) :
    listInsert k v (L ++ (a, b) :: M) = listInsert k v L ++ (a, b) :: M := by
  induction L with
  | nil => simp [listInsert, h]
  | cons p rest ih =>
      obtain ⟨c, d⟩ := p
      by_cases h1 : k < c
      · simp [listInsert, h1]
      · by_cases h2 : c < k
        · simp [listInsert, h1, h2, ih]
        · simp [listInsert, h1, h2]

lemma listInsert_split (hL : ∀ p ∈ L, p.1 < k) (hM : ∀ p ∈ M, k < p.1) :
    listInsert k v (L ++ M) = L ++ (k, v) :: M := by
  induction L with
  | nil =>
      cases M with
      | nil => rfl
      | cons p rest =>
          obtain ⟨c, d⟩ := p
          have : k < c := hM (c, d) (by simp)
          simp [listInsert, this]
  | cons p rest ih =>
      obtain ⟨c, d⟩ := p
      have hck : c < k := hL (c, d) (by simp)
      have h1 : ¬ k < c := by omega
      simp only [List.cons_append, listInsert, if_neg h1, if_pos hck,
        List.append_eq]
      rw [ih (fun q hq => hL q (by simp [hq]))]

lemma listInsert_replace (hL : ∀ p ∈ L, p.1 < k) :
    listInsert k v (L ++ (k, w) :: M) = L ++ (k, v) :: M := by
  induction L with
  | nil => simp [listInsert]
  | cons p rest ih =>
      obtain ⟨c, d⟩ := p
      have hck : c < k := hL (c, d) (by simp)
      have h1 : ¬ k < c := by omega
      simp only [List.cons_append, listInsert, if_neg h1, if_pos hck,
        List.append_eq]
      rw [ih (fun q hq => hL q (by simp [hq]))]

lemma listInsert_append_gt (hL : ∀ p ∈ L, p.1 < k) (h : a < k) :
    listInsert k v (L ++ (a, b) :: M) = L ++ (a, b) :: listInsert k v M := by
  induction L with
  | nil =>
      have h1 : ¬ k < a := by omega
      simp [listInsert, h1, h]
  | cons p rest ih =>
      obtain ⟨c, d⟩ := p
      have hck : c < k := hL (c, d) (by simp)
      have h1 : ¬ k < c := by omega
      simp only [List.cons_append, listInsert, if_neg h1, if_pos hck,
        List.append_eq]
      rw [ih (fun q hq => hL q (by simp [hq]))]

lemma mem_listInsert (p : Int × JsVal) (L : List (Int × JsVal))
    (h : p ∈ listInsert k v L) : p = (k, v) ∨ p ∈ L := by
  induction L with
  | nil => simpa [listInsert] using h
  | cons q rest ih =>
      obtain ⟨c, d⟩ := q
      by_cases h1 : k < c
      · simp only [listInsert, if_pos h1, List.mem_cons] at h ⊢
        tauto
      · by_cases h2 : c < k
        · simp only [listInsert, if_neg h1, if_pos h2, List.mem_cons] at h ⊢
          rcases h with h | h
          · simp [h]
          · rcases ih h with h3 | h3
            · exact Or.inl h3
            · simp [h3]
        · simp only [listInsert, if_neg h1, if_neg h2, List.mem_cons] at h ⊢
          tauto

lemma listInsert_pairwise (h : L.Pairwise (fun p q => p.1 < q.1)) :
    (listInsert k v L).Pairwise (fun p q => p.1 < q.1) := by
  induction L with
  | nil => simp [listInsert]
  | cons q rest ih =>
      obtain ⟨c, d⟩ := q
      rw [List.pairwise_cons] at h
      obtain ⟨hc, hrest⟩ := h
      by_cases h1 : k < c
      · rw [listInsert, if_pos h1]
        refine List.Pairwise.cons ?_ (List.Pairwise.cons hc hrest)
        intro q hq
        rcases List.mem_cons.mp hq with hq | hq
        · rw [hq]; exact h1
        · have := hc q hq; simp only at this ⊢; omega
      · by_cases h2 : c < k
        · rw [listInsert, if_neg h1, if_pos h2]
          refine List.Pairwise.cons ?_ (ih hrest)
          intro q hq
          rcases mem_listInsert q rest hq with hq | hq
          · rw [hq]; exact h2
          · exact hc q hq
        · rw [listInsert, if_neg h1, if_neg h2]
          have hceq : c = k := by omega
          refine List.Pairwise.cons ?_ hrest
          intro q hq
          have := hc q hq
          simp only at this ⊢; omega

lemma listRemove_eq_self (h : ∀ p ∈ L, p.1 ≠ k) : listRemove k L = L := by
  induction L with
  | nil => rfl
  | cons p rest ih =>
      have hp : p.1 ≠ k := h p (by simp)
      have h2 : listRemove k rest = rest := ih (fun q hq => h q (by simp [hq]))
      simp only [listRemove] at h2 ⊢
      simp [List.filter_cons, hp, h2]
      intro a b hab
      exact h (a, b) (by simp [hab])

lemma listRemove_append (k : Int) (L M : List (Int × JsVal)) :
    listRemove k (L ++ M) = listRemove k L ++ listRemove k M := by
  simp [listRemove]

lemma listRemove_cons_self (k : Int) (v : JsVal) (M : List (Int × JsVal)) :
    listRemove k ((k, v) :: M) = listRemove k M := by
  simp [listRemove]

lemma listRemove_cons_ne (h : a ≠ k) (M : List (Int × JsVal)) :
    listRemove k ((a, b) :: M) = (a, b) :: listRemove k M := by
  simp [listRemove, h]

lemma listRemove_pairwise (h : L.Pairwise (fun p q => p.1 < q.1)) :
    (listRemove k L).Pairwise (fun p q => p.1 < q.1) :=
  h.sublist (List.filter_sublist L)

lemma not_mem_listRemove_keys (k : Int) (L : List (Int × JsVal)) :
    k ∉ (listRemove k L).map Prod.fst := by
  intro h
  obtain ⟨p, hp, hk⟩ := List.mem_map.mp h
  have := List.of_mem_filter hp
  simp only [ne_eq, decide_not, Bool.not_eq_eq_eq_not, Bool.not_true,
    decide_eq_false_iff_not] at this
  exact this hk

end ListModel

/-- The BST invariant as strict sortedness of the in-order pair list. -/
lemma bst_iff_pairwiseKV (t : STree) :
    bst t = true ↔ (toListKV t).Pairwise (fun p q => p.1 < q.1) := by
  rw [bst_iff_pairwise, keysOf, List.pairwise_map]

/-- Splaying preserves the BST invariant. -/
lemma bst_splayRec (key : Int) (t : STree) (hb : bst t = true) :
    bst (splayRec key t) = true := by
  rw [bst_iff_pairwise, splay_keysOf]
  rwa [bst_iff_pairwise] at hb

lemma mem_keysOf_toListKV {t : STree} {p : Int × JsVal}
    (h : p ∈ toListKV t) : p.1 ∈ keysOf t :=
  List.mem_map_of_mem Prod.fst h

/-- `insert` of the splay variant acts on the in-order pair list as sorted
association-list insertion. -/
lemma insertS_toListKV (k : Int) (v : JsVal) (t : STree) (hb : bst t = true) :
    toListKV (insertS k v t) = listInsert k v (toListKV t) := by
  cases t with
  | leaf => rfl
  | node l0 k0 v0 r0 =>
    obtain ⟨l, a, av, r, hs, hfound, hnear⟩ :=
      splay_nearest k (.node l0 k0 v0 r0) hb (by simp)
    have hlist : toListKV (STree.node l0 k0 v0 r0) =
        toListKV l ++ (a, av) :: toListKV r := by
      rw [← splay_toListKV k (.node l0 k0 v0 r0), hs, toListKV_node]
    have hkeys : keysOf (STree.node l0 k0 v0 r0) =
        keysOf l ++ a :: keysOf r := by
      rw [← splay_keysOf k (.node l0 k0 v0 r0), hs, keysOf_node]
    have hbs : bst (STree.node l a av r) = true := by
      rw [← hs]
      exact bst_splayRec k _ hb
    rw [toListKV_node] at hlist
    rw [bst_node_iff] at hbs
    obtain ⟨hla, har, hbl, hbr⟩ := hbs
    have hred : insertS k v (STree.node l0 k0 v0 r0) =
        (match splayRec k (STree.node l0 k0 v0 r0) with
         | .leaf => .leaf
         | .node l rk rv r =>
           if k < rk then .node l k v (.node .leaf rk rv r)
           else if rk < k then .node (.node l rk rv .leaf) k v r
           else .node l rk v r) := rfl
    rw [hred, hs]
    by_cases h1 : k < a
    · have hL : ∀ p ∈ toListKV l, p.1 < k := by
        intro p hp
        have hmem : p.1 ∈ keysOf l := mem_keysOf_toListKV hp
        have h2 := hla p.1 hmem
        have h3 := hnear p.1 (by rw [hkeys]; simp [hmem])
        by_cases h4 : p.1 = k
        · have : k ∈ keysOf (STree.node l0 k0 v0 r0) := by
            rw [hkeys]; simp [← h4, hmem]
          have := hfound this
          omega
        · omega
      have hM : ∀ p ∈ (a, av) :: toListKV r, k < p.1 := by
        intro p hp
        rcases List.mem_cons.mp hp with hp | hp
        · rw [hp]; exact h1
        · have := har p.1 (mem_keysOf_toListKV hp); omega
      simp only [if_pos h1, toListKV_node, toListKV_leaf, List.nil_append]
      rw [hlist, show toListKV l ++ (a, av) :: toListKV r =
        toListKV l ++ ((a, av) :: toListKV r) from rfl,
        listInsert_split hL hM]
    · by_cases h2 : a < k
      · have hL : ∀ p ∈ toListKV l ++ [(a, av)], p.1 < k := by
          intro p hp
          rcases List.mem_append.mp hp with hp | hp
          · have := hla p.1 (mem_keysOf_toListKV hp); omega
          · simp only [List.mem_singleton] at hp
            rw [hp]; exact h2
        have hM : ∀ p ∈ toListKV r, k < p.1 := by
          intro p hp
          have hmem : p.1 ∈ keysOf r := mem_keysOf_toListKV hp
          have h3 := har p.1 hmem
          have h4 := hnear p.1 (by rw [hkeys]; simp [hmem])
          by_cases h5 : p.1 = k
          · have : k ∈ keysOf (STree.node l0 k0 v0 r0) := by
              rw [hkeys]; simp [← h5, hmem]
            have := hfound this
            omega
          · omega
        simp only [if_neg h1, if_pos h2, toListKV_node, toListKV_leaf,
          List.append_nil]
        rw [hlist, show toListKV l ++ (a, av) :: toListKV r =
          (toListKV l ++ [(a, av)]) ++ toListKV r by simp,
          listInsert_split hL hM]
      · have hak : a = k := by omega
        subst hak
        have hL : ∀ p ∈ toListKV l, p.1 < a := by
          intro p hp
          exact hla p.1 (mem_keysOf_toListKV hp)
        simp only [if_neg h1, if_neg h2, toListKV_node]
        rw [hlist, listInsert_replace hL]

/-- `remove` of the splay variant acts on the in-order pair list as removal
of the key from the association list. -/
lemma removeS_toListKV (k : Int) (t : STree) (hb : bst t = true) :
    toListKV (removeS k t) = listRemove k (toListKV t) := by
  cases t with
  | leaf => rfl
  | node l0 k0 v0 r0 =>
    obtain ⟨l, a, av, r, hs, hfound, hnear⟩ :=
      splay_nearest k (.node l0 k0 v0 r0) hb (by simp)
    have hlist : toListKV (STree.node l0 k0 v0 r0) =
        toListKV l ++ (a, av) :: toListKV r := by
      rw [← splay_toListKV k (.node l0 k0 v0 r0), hs, toListKV_node]
    have hkeys : keysOf (STree.node l0 k0 v0 r0) =
        keysOf l ++ a :: keysOf r := by
      rw [← splay_keysOf k (.node l0 k0 v0 r0), hs, keysOf_node]
    have hbs : bst (STree.node l a av r) = true := by
      rw [← hs]
      exact bst_splayRec k _ hb
    rw [bst_node_iff] at hbs
    obtain ⟨hla, har, hbl, hbr⟩ := hbs
    have hred : removeS k (STree.node l0 k0 v0 r0) =
        (match splayRec k (STree.node l0 k0 v0 r0) with
         | .leaf => .leaf
         | .node l rk rv r =>
           if rk = k then
             match l, r with
             | .leaf, .leaf => .leaf
             | .leaf, .node a b c d => .node a b c d
             | .node a b c d, _ =>
               match splayRec k (.node a b c d) with
               | .leaf => .leaf
               | .node l2 m mv _ => .node l2 m mv r
           else .node l rk rv r) := rfl
    rw [hred, hs]
    by_cases h1 : a = k
    · subst h1
      have hRne : ∀ p ∈ toListKV r, p.1 ≠ a := by
        intro p hp
        have := har p.1 (mem_keysOf_toListKV hp); omega
      have hLne : ∀ p ∈ toListKV l, p.1 ≠ a := by
        intro p hp
        have := hla p.1 (mem_keysOf_toListKV hp); omega
      cases l with
      | leaf =>
        cases r with
        | leaf => simp [hlist, listRemove]
        | node a2 b2 c2 d2 =>
            simp only [if_pos rfl]
            rw [hlist]
            simp only [toListKV_leaf, List.nil_append]
            rw [listRemove_cons_self, listRemove_eq_self hRne]
            simp
      | node a2 b2 c2 d2 =>
        have hlt : ∀ x ∈ keysOf (STree.node a2 b2 c2 d2), x < a := hla
        obtain ⟨A, m, mv, hs2, hmem, hmax⟩ :=
          splay_upper a (.node a2 b2 c2 d2) hbl hlt (by simp)
        have hlist2 : toListKV (STree.node a2 b2 c2 d2) =
            toListKV A ++ [(m, mv)] := by
          rw [← splay_toListKV a (.node a2 b2 c2 d2), hs2]
          simp
        simp only [if_pos rfl]
        rw [hs2, hlist, hlist2, listRemove_append, listRemove_cons_self,
          listRemove_eq_self hRne,
          listRemove_eq_self (by
            intro p hp
            rw [hlist2] at hLne
            exact hLne p (by simp [hp]))]
        simp
    · simp only [if_neg h1]
      have hne : ∀ p ∈ toListKV (STree.node l0 k0 v0 r0), p.1 ≠ k := by
        intro p hp hcon
        have : k ∈ keysOf (STree.node l0 k0 v0 r0) := by
          rw [← hcon]
          exact mem_keysOf_toListKV hp
        exact h1 (hfound this)
      rw [listRemove_eq_self hne, hlist]
      simp

/-- `insertRecursive` of the draft variant acts on the in-order pair list as
sorted association-list insertion. -/
lemma insertRec_toListKV (key : Int) (val : JsVal) :
    ∀ t : STree, bst t = true →
      toListKV (insertRec key val t) = listInsert key val (toListKV t) := by
  intro t
  induction t with
  | leaf => intro _; rfl
  | node l k v r ihl ihr =>
      intro hb
      rw [bst_node_iff] at hb
      obtain ⟨hl, hr, hbl, hbr⟩ := hb
      by_cases h1 : key < k
      · rw [show insertRec key val (.node l k v r) =
            .node (insertRec key val l) k v r by simp [insertRec, h1]]
        simp only [toListKV_node]
        rw [ihl hbl, listInsert_append_lt h1]
      · by_cases h2 : k < key
        · rw [show insertRec key val (.node l k v r) =
              .node l k v (insertRec key val r) by simp [insertRec, h1, h2]]
          simp only [toListKV_node]
          have hL : ∀ p ∈ toListKV l, p.1 < key := by
            intro p hp
            have := hl p.1 (mem_keysOf_toListKV hp); omega
          rw [ihr hbr, listInsert_append_gt hL h2]
        · have hkk : key = k := by omega
          subst hkk
          rw [show insertRec key val (.node l key v r) =
              .node l key val r by simp [insertRec, h1, h2]]
          simp only [toListKV_node]
          have hL : ∀ p ∈ toListKV l, p.1 < key := by
            intro p hp
            exact hl p.1 (mem_keysOf_toListKV hp)
          rw [listInsert_replace hL]

/-- The key/value found by `minRecursive` heads the in-order pair list. -/
lemma minKV_head : ∀ t : STree, t ≠ .leaf →
    ∃ rest, toListKV t = ((minKV t).1, (minKV t).2) :: rest := by
  intro t
  induction t with
  | leaf => intro h; exact absurd rfl h
  | node l k v r ihl ihr =>
      intro _
      cases l with
      | leaf => exact ⟨toListKV r, by simp [minKV]⟩
      | node a b c d =>
          obtain ⟨rest, hrest⟩ := ihl (by simp)
          refine ⟨rest ++ (k, v) :: toListKV r, ?_⟩
          rw [show minKV (.node (.node a b c d) k v r) =
            minKV (.node a b c d) from rfl, toListKV_node, hrest]
          simp

/-- `removeRecursive` of the draft variant acts on the in-order pair list as
removal of the key. -/
lemma removeRec_toListKV :
    ∀ t : STree, bst t = true → ∀ key,
      toListKV (removeRec key t) = listRemove key (toListKV t) := by
  intro t
  induction t with
  | leaf => intro _ key; rfl
  | node l k v r ihl ihr =>
      intro hb key
      rw [bst_node_iff] at hb
      obtain ⟨hl, hr, hbl, hbr⟩ := hb
      by_cases h1 : key < k
      · rw [show removeRec key (.node l k v r) =
            .node (removeRec key l) k v r by simp [removeRec, h1]]
        simp only [toListKV_node]
        rw [ihl hbl key, listRemove_append,
          listRemove_eq_self (L := (k, v) :: toListKV r) (by
            intro p hp
            have hpk : p.1 = k ∨ p.1 ∈ keysOf r := by
              rcases List.mem_cons.mp hp with hp | hp
              · exact Or.inl (by rw [hp])
              · exact Or.inr (mem_keysOf_toListKV hp)
            rcases hpk with hpk | hpk
            · omega
            · have := hr p.1 hpk; omega)]
      · by_cases h2 : k < key
        · rw [show removeRec key (.node l k v r) =
              .node l k v (removeRec key r) by simp [removeRec, h1, h2]]
          simp only [toListKV_node]
          rw [ihr hbr key, listRemove_append,
            listRemove_eq_self (L := toListKV l) (by
              intro p hp
              have := hl p.1 (mem_keysOf_toListKV hp); omega),
            listRemove_cons_ne (by omega)]
        · have hkk : key = k := by omega
          subst hkk
          have hLne : ∀ p ∈ toListKV l, p.1 ≠ key := by
            intro p hp
            have := hl p.1 (mem_keysOf_toListKV hp); omega
          have hRne : ∀ p ∈ toListKV r, p.1 ≠ key := by
            intro p hp
            have := hr p.1 (mem_keysOf_toListKV hp); omega
          by_cases hl0 : l = .leaf
          · by_cases hr0 : r = .leaf
            · subst hl0; subst hr0
              rw [show removeRec key (.node .leaf key v .leaf) = .leaf by
                simp [removeRec, h1, h2]]
              simp [listRemove]
            · subst hl0
              rw [show removeRec key (.node .leaf key v r) = r by
                simp [removeRec, h1, h2, hr0]]
              simp only [toListKV_node, toListKV_leaf, List.nil_append]
              rw [listRemove_cons_self, listRemove_eq_self hRne]
          · by_cases hr0 : r = .leaf
            · subst hr0
              rw [show removeRec key (.node l key v .leaf) = l by
                simp [removeRec, h1, h2, hl0]]
              simp only [toListKV_node, toListKV_leaf]
              rw [listRemove_append, listRemove_cons_self,
                listRemove_eq_self hLne]
              simp [listRemove]
            · rw [show removeRec key (.node l key v r) =
                  .node l (minKV r).1 (minKV r).2 (removeRec (minKV r).1 r) by
                simp [removeRec, h1, h2, hl0, hr0]]
              obtain ⟨rest, hrest⟩ := minKV_head r hr0
              have hpair : (toListKV r).Pairwise (fun p q => p.1 < q.1) :=
                (bst_iff_pairwiseKV r).mp hbr
              have hrest_ne : ∀ p ∈ rest, p.1 ≠ (minKV r).1 := by
                rw [hrest, List.pairwise_cons] at hpair
                intro p hp
                have := hpair.1 p hp; omega
              rw [hrest] at hRne
              simp only [toListKV_node]
              rw [ihr hbr (minKV r).1, hrest, listRemove_cons_self,
                listRemove_eq_self hrest_ne, listRemove_append,
                listRemove_eq_self hLne, listRemove_cons_self,
                listRemove_eq_self hRne]

/-- `insert` of the draft on the list level. -/
lemma insertP_toListKV (key : Int) (val : JsVal) (t : STree)
    (hb : bst t = true) :
    toListKV (insertP key val t) = listInsert key val (toListKV t) := by
  cases t with
  | leaf => rfl
  | node l k v r => exact insertRec_toListKV key val _ hb

/-- `remove` of the draft on the list level. -/
lemma removeP_toListKV (key : Int) (t : STree) (hb : bst t = true) :
    toListKV (removeP key t) = listRemove key (toListKV t) := by
  cases t with
  | leaf => rfl
  | node l k v r => exact removeRec_toListKV _ hb key

lemma bst_insertS (k : Int) (v : JsVal) (t : STree) (hb : bst t = true) :
    bst (insertS k v t) = true := by
  rw [bst_iff_pairwiseKV, insertS_toListKV k v t hb]
  exact listInsert_pairwise ((bst_iff_pairwiseKV t).mp hb)

lemma bst_removeS (k : Int) (t : STree) (hb : bst t = true) :
    bst (removeS k t) = true := by
  rw [bst_iff_pairwiseKV, removeS_toListKV k t hb]
  exact listRemove_pairwise ((bst_iff_pairwiseKV t).mp hb)

lemma bst_insertP (k : Int) (v : JsVal) (t : STree) (hb : bst t = true) :
    bst (insertP k v t) = true := by
  rw [bst_iff_pairwiseKV, insertP_toListKV k v t hb]
  exact listInsert_pairwise ((bst_iff_pairwiseKV t).mp hb)

lemma bst_removeP (k : Int) (t : STree) (hb : bst t = true) :
    bst (removeP k t) = true := by
  rw [bst_iff_pairwiseKV, removeP_toListKV k t hb]
  exact listRemove_pairwise ((bst_iff_pairwiseKV t).mp hb)

lemma bst_applyS (op : Op) (t : STree) (hb : bst t = true) :
    bst (applyS op t) = true := by
  cases op with
  | ins k v =>
      by_cases hv : validScalar v = true
      · rw [show applyS (.ins k v) t = insertS k v t by
          simp [applyS, insertJs, hv, show validScalar (JsVal.num k) = true
            from rfl]]
        exact bst_insertS k v t hb
      · have hv2 : validScalar v = false := by
          simpa using hv
        rw [show applyS (.ins k v) t = t by
          simp [applyS, insertJs, hv2, show validScalar (JsVal.num k) = true
            from rfl]]
        exact hb
  | del k => exact bst_removeS k t hb

lemma bst_foldl_applyS (ops : List Op) :
    ∀ t : STree, bst t = true →
      bst (ops.foldl (fun t op => applyS op t) t) = true := by
  induction ops with
  | nil => intro t hb; exact hb
  | cons op rest ih =>
      intro t hb
      exact ih (applyS op t) (bst_applyS op t hb)

lemma bst_runS (ops : List Op) : bst (runS ops) = true :=
  bst_foldl_applyS ops .leaf rfl

lemma bst_applyP (op : Op) (t : STree) (hb : bst t = true) :
    bst (applyP op t) = true := by
  cases op with
  | ins k v => exact bst_insertP k v t hb
  | del k => exact bst_removeP k t hb

/-- On valid operations the two variants transform equal in-order pair lists
to equal in-order pair lists. -/
lemma applySP_toListKV (op : Op) (t1 t2 : STree) (hb1 : bst t1 = true)
    (hb2 : bst t2 = true) (heq : toListKV t1 = toListKV t2)
    (hv : opValid op = true) :
    toListKV (applyS op t1) = toListKV (applyP op t2) := by
  cases op with
  | ins k v =>
      have hvv : validScalar v = true := hv
      rw [show applyS (.ins k v) t1 = insertS k v t1 by
          simp [applyS, insertJs, hvv, show validScalar (JsVal.num k) = true
            from rfl],
        show applyP (.ins k v) t2 = insertP k v t2 from rfl,
        insertS_toListKV k v t1 hb1, insertP_toListKV k v t2 hb2, heq]
  | del k =>
      rw [show applyS (.del k) t1 = removeS k t1 from rfl,
        show applyP (.del k) t2 = removeP k t2 from rfl,
        removeS_toListKV k t1 hb1, removeP_toListKV k t2 hb2, heq]

lemma insertS_node_eq (k : Int) (v : JsVal) (l0 : STree) (k0 : Int)
    (v0 : JsVal) (r0 : STree) :
    insertS k v (.node l0 k0 v0 r0) =
      (match splayRec k (.node l0 k0 v0 r0) with
       | .leaf => .leaf
       | .node l rk rv r =>
         if k < rk then .node l k v (.node .leaf rk rv r)
         else if rk < k then .node (.node l rk rv .leaf) k v r
         else .node l rk v r) := rfl

lemma removeS_node_eq (k : Int) (l0 : STree) (k0 : Int) (v0 : JsVal)
    (r0 : STree) :
    removeS k (.node l0 k0 v0 r0) =
      (match splayRec k (.node l0 k0 v0 r0) with
       | .leaf => .leaf
       | .node l rk rv r =>
         if rk = k then
           match l, r with
           | .leaf, .leaf => .leaf
           | .leaf, .node a b c d => .node a b c d
           | .node a b c d, _ =>
             match splayRec k (.node a b c d) with
             | .leaf => .leaf
             | .node l2 m mv _ => .node l2 m mv r
         else .node l rk rv r) := rfl

lemma searchS_node_eq (k : Int) (l0 : STree) (k0 : Int) (v0 : JsVal)
    (r0 : STree) :
    searchS k (.node l0 k0 v0 r0) =
      (match splayRec k (.node l0 k0 v0 r0) with
       | .leaf => (none, .leaf)
       | .node l rk rv r =>
         (if rk = k then some (.node l rk rv r) else none,
          .node l rk rv r)) := rfl

/-- The root of the tree right after `insert(k, v)` always holds `k`. -/
lemma rootKey_insertS (k : Int) (v : JsVal) (t : STree) :
    rootKey (insertS k v t) = some k := by
  cases t with
  | leaf => rfl
  | node l0 k0 v0 r0 =>
      rw [insertS_node_eq]
      rcases hs : splayRec k (.node l0 k0 v0 r0) with _ | ⟨l, a, av, r⟩
      · exact absurd hs (splay_ne_leaf k _ (by simp))
      · by_cases h1 : k < a
        · simp [h1, rootKey]
        · by_cases h2 : a < k
          · simp [h1, h2, rootKey]
          · have : a = k := by omega
            simp [h1, h2, rootKey, this]

lemma sizeT_toListKV (t : STree) : sizeT t = (toListKV t).length := by
  induction t with
  | leaf => rfl
  | node l k v r ihl ihr => simp [sizeT, ihl, ihr]; omega

lemma keys_listRemove (k : Int) (L : List (Int × JsVal)) :
    (listRemove k L).map Prod.fst =
      (L.map Prod.fst).filter (fun x => x ≠ k) := by
  induction L with
  | nil => rfl
  | cons p rest ih =>
      by_cases hp : p.1 = k
      · simp [listRemove, List.filter_cons, hp] at ih ⊢
        exact ih
      · simp [listRemove, List.filter_cons, hp] at ih ⊢
        exact ih

/-- `minRecursive` on a non-empty BST returns a node holding the smallest
key of the subtree. -/
lemma minRecursive_spec : ∀ t : STree, bst t = true → t ≠ .leaf →
    ∃ k', rootKey (minRecursive t) = some k' ∧ k' ∈ keysOf t ∧
      ∀ x ∈ keysOf t, k' ≤ x := by
  intro t
  induction t with
  | leaf => intro _ h; exact absurd rfl h
  | node l k v r ihl ihr =>
      intro hb _
      rw [bst_node_iff] at hb
      obtain ⟨hl, hr, hbl, hbr⟩ := hb
      cases l with
      | leaf =>
          refine ⟨k, rfl, by simp, ?_⟩
          intro x hx
          simp only [keysOf_node, keysOf_leaf, List.nil_append,
            List.mem_cons] at hx
          rcases hx with hx | hx
          · omega
          · have := hr x hx; omega
      | node a b c d =>
          obtain ⟨k', hroot, hmem, hmin⟩ := ihl hbl (by simp)
          refine ⟨k', by rw [show minRecursive (.node (.node a b c d) k v r) =
            minRecursive (.node a b c d) from rfl]; exact hroot, by
              simp only [keysOf_node, List.mem_append, List.mem_cons] at hmem ⊢
              tauto, ?_⟩
          intro x hx
          have hk'k : k' < k := hl k' hmem
          simp only [keysOf_node, List.mem_cons, List.mem_append] at hx
          rcases hx with hx | hx | hx
          · exact hmin x (by simpa using hx)
          · omega
          · have := hr x hx; omega

/-- `maxRecursive` on a non-empty BST returns a node holding the largest
key of the subtree. -/
lemma maxRecursive_spec : ∀ t : STree, bst t = true → t ≠ .leaf →
    ∃ k', rootKey (maxRecursive t) = some k' ∧ k' ∈ keysOf t ∧
      ∀ x ∈ keysOf t, x ≤ k' := by
  intro t
  induction t with
  | leaf => intro _ h; exact absurd rfl h
  | node l k v r ihl ihr =>
      intro hb _
      rw [bst_node_iff] at hb
      obtain ⟨hl, hr, hbl, hbr⟩ := hb
      cases r with
      | leaf =>
          refine ⟨k, rfl, by simp, ?_⟩
          intro x hx
          simp only [keysOf_node, keysOf_leaf, List.append_nil, List.mem_cons,
            List.mem_append, List.not_mem_nil, or_false] at hx
          rcases hx with hx | hx
          · have := hl x hx; omega
          · omega
      | node a b c d =>
          obtain ⟨k', hroot, hmem, hmax⟩ := ihr hbr (by simp)
          refine ⟨k', by rw [show maxRecursive (.node l k v (.node a b c d)) =
            maxRecursive (.node a b c d) from rfl]; exact hroot, by
              simp only [keysOf_node, List.mem_append, List.mem_cons] at hmem ⊢
              tauto, ?_⟩
          intro x hx
          have hkk' : k < k' := hr k' hmem
          simp only [keysOf_node, List.mem_cons, List.mem_append] at hx
          rcases hx with hx | hx | hx
          · have := hl x hx; omega
          · omega
          · exact hmax x (by simpa using hx)

lemma runSP_foldl (ops : List Op) :
    ∀ t1 t2 : STree, bst t1 = true → bst t2 = true →
      toListKV t1 = toListKV t2 → (∀ op ∈ ops, opValid op = true) →
      toListKV (ops.foldl (fun t op => applyS op t) t1) =
        toListKV (ops.foldl (fun t op => applyP op t) t2) := by
  induction ops with
  | nil => intro t1 t2 _ _ heq _; exact heq
  | cons op rest ih =>
      intro t1 t2 hb1 hb2 heq hv
      exact ih (applyS op t1) (applyP op t2) (bst_applyS op t1 hb1)
        (bst_applyP op t2 hb2)
        (applySP_toListKV op t1 t2 hb1 hb2 heq (hv op (by simp)))
        (fun q hq => hv q (by simp [hq]))

lemma filter_key_eq_nil {k : Int} {L : List (Int × JsVal)}
    (h : ∀ p ∈ L, p.1 ≠ k) :
    L.filter (fun p => p.1 = k) = [] := by
  induction L with
  | nil => rfl
  | cons p rest ih =>
      have hp := h p (by simp)
      simp [List.filter_cons, hp, ih (fun q hq => h q (by simp [hq]))]

/-- C1: For every sequence of insert and remove operations with valid scalar
(numeric) keys, starting from the empty tree, after every operation the tree
satisfies the BST ordering invariant: every key in a node's left subtree is
strictly below its key and every key in its right subtree strictly above
(`bst`), keys are unique, and the in-order traversal yields strictly
ascending keys. -/
theorem claim1_ordering_invariant (ops : List Op) :
    bst (runS ops) = true ∧
    List.Sorted (· < ·) (keysOf (runS ops)) ∧
    (keysOf (runS ops)).Nodup := by
  have hb := bst_runS ops
  exact ⟨hb, (bst_iff_pairwise _).mp hb, bst_nodup_keys _ hb⟩

/-- C5: the source's `contains` discards both recursive results and falls
through, so it answers `false` for the present key 1 after
`insert(1,"a"); insert(2,"b")` (the tree is rooted at 2 with 1 below): the
code contradicts its own doc comment "True if the key exists in the tree". -/
theorem claim5_contains_misses_present_key :
    containsS 1 (insertS 2 (.str "b") (insertS 1 (.str "a") .leaf)) = false ∧
    1 ∈ keysOf (insertS 2 (.str "b") (insertS 1 (.str "a") .leaf)) := by
  decide

/-- C6 counterexample: in the spec's concrete scenario — insert (10,"a"),
(4,"b"), (12,"c"), then `search(4)` — `remove(10)` leaves the root at key 4
(the predecessor-tree max), not at key 12 as the claim states. -/
theorem claim6_counterexample :
    rootKey (searchS 4 scenarioTree).2 = some 4 ∧
    rootKey (removeS 10 (searchS 4 scenarioTree).2) ≠ some 12 := by
  decide

/-- C6 amended: insert (10,"a"), (4,"b"), (12,"c"); `search(4)` makes the
root's key 4; then `remove(10)` makes the root's key 4 (the
predecessor-tree max after split/rejoin, not 12); the in-order traversal
afterwards yields exactly the keys [4, 12]. -/
theorem claim6_scenario :
    rootKey (searchS 4 scenarioTree).2 = some 4 ∧
    rootKey (removeS 10 (searchS 4 scenarioTree).2) = some 4 ∧
    keysOf (removeS 10 (searchS 4 scenarioTree).2) = [4, 12] := by
  decide

/-- C8 counterexample: the claim quantifies over every key or value that is
neither a number nor a string, but the source's check
`!(Number(x) || x === 0) && typeof x !== "string"` accepts any value whose
`Number(x)` coercion is truthy: `insert(1, true)` passes the check
(`Number(true) = 1`), raises no error, and mutates the empty tree by
creating the node `(1, true)`. -/
theorem claim8_counterexample :
    (∀ n : Int, JsVal.boolean true ≠ .num n) ∧
    (∀ s : String, JsVal.boolean true ≠ .str s) ∧
    validScalar (.boolean true) = true ∧
    insertJs (.num 1) (.boolean true) .leaf =
      .ok (.node .leaf 1 (.boolean true) .leaf) ∧
    insertJs (.num 1) (.boolean true) .leaf ≠ .error "Invalid insert" := by
  refine ⟨fun n h => JsVal.noConfusion h, fun s h => JsVal.noConfusion h,
    rfl, rfl, ?_⟩
  intro h
  rw [show insertJs (.num 1) (.boolean true) .leaf =
    .ok (.node .leaf 1 (.boolean true) .leaf) from rfl] at h
  exact Except.noConfusion h

/-- C8 amended: an insert whose key or value fails the source's runtime
scalar check `!(Number(x) || x === 0) && typeof x !== "string"` — such as
`undefined`, `null`, or `false`, though not `true`, whose `Number` coercion
is truthy — fails with the `"Invalid insert"` error, before any splay or
relinking, and the tree is left completely unchanged. -/
theorem claim8_invalid_insert_fails (k v : JsVal) (t : STree)
    (h : ¬ (validScalar k = true ∧ validScalar v = true)) :
    insertJs k v t = .error "Invalid insert" ∧
    (match insertJs k v t with
     | .ok t' => t'
     | .error _ => t) = t := by
  have hc : ¬ (validScalar k = true) ∨ ¬ (validScalar v = true) := by tauto
  have h1 : insertJs k v t = .error "Invalid insert" := by
    unfold insertJs
    exact if_pos hc
  exact ⟨h1, by rw [h1]⟩

theorem claim8_witness :
    ¬ (validScalar (.boolean false) = true ∧
       validScalar (.str "a") = true) ∧
    insertJs (.boolean false) (.str "a") .leaf = .error "Invalid insert" :=
  ⟨by decide, (claim8_invalid_insert_fails (.boolean false) (.str "a") .leaf
    (by decide)).1⟩

/-- C2 counterexample: removing the minimum key of a reachable tree leaves a
root that is not the nearest remaining neighbour of the removed key. After
insert 1,2,3,4 (a left chain rooted at 4), `remove(1)` splays 1 up with
right child 3 (whose left child is 2), so the new root is 3 even though the
remaining key 2 is strictly nearer to 1. -/
theorem claim2_counterexample :
    rootKey (removeS 1 (runS [.ins 1 (.str "a"), .ins 2 (.str "b"),
        .ins 3 (.str "c"), .ins 4 (.str "d")])) = some 3 ∧
    2 ∈ keysOf (removeS 1 (runS [.ins 1 (.str "a"), .ins 2 (.str "b"),
        .ins 3 (.str "c"), .ins 4 (.str "d")])) ∧
    (1 : Int) < 2 ∧ (2 : Int) < 3 := by
  decide

/-- C2 amended: after `insert(k,v)` the root's key is `k`; after `search(k)`
on a non-empty tree the tree is the splayed tree and, if `k` is present, the
root holds `k`; if `k` is absent, the root is a nearest neighbour (no key of
the tree lies strictly between the root key and `k`); after `remove(k)`,
`k` is absent, a miss leaves the splayed tree, removing a key that has a
predecessor leaves the predecessor (the max of the keys below `k`) at the
root, and removing the minimum leaves the splayed tree's right child as the
whole tree (its root need not be the nearest neighbour). -/
theorem claim2_root_after_access (t : STree) (k : Int) (v : JsVal)
    (hb : bst t = true) :
    rootKey (insertS k v t) = some k ∧
    (t ≠ .leaf →
      (searchS k t).2 = splayRec k t ∧
      (k ∈ keysOf t → rootKey (splayRec k t) = some k)) ∧
    (k ∉ keysOf t → t ≠ .leaf →
      ∃ a, rootKey (splayRec k t) = some a ∧ a ∈ keysOf t ∧
        ∀ x ∈ keysOf t, ¬(min a k < x ∧ x < max a k)) ∧
    k ∉ keysOf (removeS k t) ∧
    (k ∉ keysOf t → removeS k t = splayRec k t) ∧
    (k ∈ keysOf t → (∃ x ∈ keysOf t, x < k) →
      ∃ m, rootKey (removeS k t) = some m ∧ m ∈ keysOf t ∧ m < k ∧
        ∀ x ∈ keysOf t, x < k → x ≤ m) ∧
    (k ∈ keysOf t → (∀ x ∈ keysOf t, ¬ x < k) →
      removeS k t = rightT (splayRec k t)) := by
  refine ⟨rootKey_insertS k v t, ?_, ?_, ?_, ?_, ?_, ?_⟩
  · -- search leaves the splayed tree; a hit is at the root
    intro hne
    cases t with
    | leaf => exact absurd rfl hne
    | node l0 k0 v0 r0 =>
        obtain ⟨l, a, av, r, hs, hfound, hnear⟩ :=
          splay_nearest k _ hb (by simp)
        constructor
        · rw [searchS_node_eq, hs]
        · intro hk
          rw [hs, hfound hk]
          rfl
  · -- miss: the root is a nearest neighbour
    intro hk hne
    cases t with
    | leaf => exact absurd rfl hne
    | node l0 k0 v0 r0 =>
        obtain ⟨l, a, av, r, hs, hfound, hnear⟩ :=
          splay_nearest k _ hb (by simp)
        have hamem : a ∈ keysOf (STree.node l0 k0 v0 r0) := by
          rw [← splay_keysOf k (.node l0 k0 v0 r0), hs]
          exact rootKey_mem l a av r
        exact ⟨a, by rw [hs]; rfl, hamem, hnear⟩
  · -- k is absent after remove(k)
    have hkeys : keysOf (removeS k t) = (keysOf t).filter (fun x => x ≠ k) := by
      rw [keysOf, removeS_toListKV k t hb, keys_listRemove]
      rfl
    rw [hkeys]
    intro hmem
    have := List.of_mem_filter hmem
    simp at this
  · -- remove on an absent key leaves the splayed tree
    intro hk
    cases t with
    | leaf => rfl
    | node l0 k0 v0 r0 =>
        obtain ⟨l, a, av, r, hs, hfound, hnear⟩ :=
          splay_nearest k _ hb (by simp)
        have hamem : a ∈ keysOf (STree.node l0 k0 v0 r0) := by
          rw [← splay_keysOf k (.node l0 k0 v0 r0), hs]
          exact rootKey_mem l a av r
        have hak : ¬ a = k := fun h => hk (h ▸ hamem)
        rw [removeS_node_eq, hs]
        simp [hak]
  · -- removing a key with a predecessor roots the predecessor
    intro hmem hex
    cases t with
    | leaf => simp at hmem
    | node l0 k0 v0 r0 =>
        obtain ⟨l, a, av, r, hs, hfound, hnear⟩ :=
          splay_nearest k _ hb (by simp)
        have hak : a = k := hfound hmem
        subst hak
        have hbs : bst (STree.node l a av r) = true := by
          rw [← hs]; exact bst_splayRec a _ hb
        rw [bst_node_iff] at hbs
        obtain ⟨hla, har, hbl, hbr⟩ := hbs
        have hkeys : keysOf (STree.node l0 k0 v0 r0) =
            keysOf l ++ a :: keysOf r := by
          rw [← splay_keysOf a (.node l0 k0 v0 r0), hs, keysOf_node]
        have hlne : l ≠ .leaf := by
          obtain ⟨x, hx, hxa⟩ := hex
          rw [hkeys] at hx
          simp only [List.mem_append, List.mem_cons] at hx
          rcases hx with hx | hx | hx
          · intro hcon
            rw [hcon] at hx
            simp at hx
          · omega
          · have := har x hx; omega
        cases l with
        | leaf => exact absurd rfl hlne
        | node a2 b2 c2 d2 =>
            obtain ⟨A, m, mv, hs2, hmmem, hmax⟩ :=
              splay_upper a (.node a2 b2 c2 d2) hbl hla (by simp)
            have hred : removeS a (STree.node l0 k0 v0 r0) =
                .node A m mv r := by
              rw [removeS_node_eq, hs]
              simp [hs2]
            refine ⟨m, by rw [hred]; rfl, ?_, hla m hmmem, ?_⟩
            · rw [hkeys]
              simp only [keysOf_node, List.mem_append, List.mem_cons] at hmmem ⊢
              tauto
            · intro x hx hxa
              rw [hkeys] at hx
              simp only [List.mem_append, List.mem_cons] at hx
              rcases hx with hx | hx | hx
              · exact hmax x hx
              · omega
              · have := har x hx; omega
  · -- removing the minimum promotes the old right child
    intro hmem hnolt
    cases t with
    | leaf => simp at hmem
    | node l0 k0 v0 r0 =>
        obtain ⟨l, a, av, r, hs, hfound, hnear⟩ :=
          splay_nearest k _ hb (by simp)
        have hak : a = k := hfound hmem
        subst hak
        have hbs : bst (STree.node l a av r) = true := by
          rw [← hs]; exact bst_splayRec a _ hb
        rw [bst_node_iff] at hbs
        obtain ⟨hla, har, hbl, hbr⟩ := hbs
        have hkeys : keysOf (STree.node l0 k0 v0 r0) =
            keysOf l ++ a :: keysOf r := by
          rw [← splay_keysOf a (.node l0 k0 v0 r0), hs, keysOf_node]
        have hlleaf : l = .leaf := by
          rw [← keysOf_eq_nil_iff]
          by_contra hcon
          obtain ⟨x, hx⟩ := List.exists_mem_of_ne_nil _ hcon
          have hxa := hla x hx
          have hxmem : x ∈ keysOf (STree.node l0 k0 v0 r0) := by
            rw [hkeys]; simp [hx]
          exact hnolt x hxmem hxa
        subst hlleaf
        rw [removeS_node_eq, hs]
        cases r with
        | leaf => simp [rightT]
        | node a3 b3 c3 d3 => simp [rightT]

theorem claim2_witness :
    bst scenarioTree = true ∧
    rootKey (insertS 5 (.str "e") scenarioTree) = some 5 :=
  ⟨by decide,
   (claim2_root_after_access scenarioTree 5 (.str "e") (by decide)).1⟩

/-- C3: when `remove(k)` finds `k` at the root with both children non-empty
(equivalently, on a BST holding `k` together with a smaller and a larger
key), the second splay of the detached left subtree around `k` brings the
left subtree's maximum to its root and leaves that root's right child empty,
so reattaching the old right subtree yields a valid BST containing exactly
the old keys minus `k`. -/
theorem claim3_remove_with_two_children (t : STree) (k : Int)
    (hb : bst t = true) (hmem : k ∈ keysOf t)
    (hlo : ∃ a ∈ keysOf t, a < k) (hhi : ∃ b ∈ keysOf t, k < b) :
    bst (removeS k t) = true ∧
    keysOf (removeS k t) = (keysOf t).filter (fun x => x ≠ k) ∧
    ∃ l rv r, splayRec k t = .node l k rv r ∧ l ≠ .leaf ∧ r ≠ .leaf ∧
      ∃ l2 m mv, splayRec k l = .node l2 m mv .leaf ∧ m ∈ keysOf l ∧
        (∀ x ∈ keysOf l, x ≤ m) ∧ removeS k t = .node l2 m mv r := by
  refine ⟨bst_removeS k t hb, ?_, ?_⟩
  · rw [keysOf, removeS_toListKV k t hb, keys_listRemove]
    rfl
  · cases t with
    | leaf => simp at hmem
    | node l0 k0 v0 r0 =>
        obtain ⟨l, a, av, r, hs, hfound, hnear⟩ :=
          splay_nearest k _ hb (by simp)
        have hak : a = k := hfound hmem
        subst hak
        have hbs : bst (STree.node l a av r) = true := by
          rw [← hs]; exact bst_splayRec a _ hb
        rw [bst_node_iff] at hbs
        obtain ⟨hla, har, hbl, hbr⟩ := hbs
        have hkeys : keysOf (STree.node l0 k0 v0 r0) =
            keysOf l ++ a :: keysOf r := by
          rw [← splay_keysOf a (.node l0 k0 v0 r0), hs, keysOf_node]
        have hlne : l ≠ .leaf := by
          obtain ⟨x, hx, hxa⟩ := hlo
          rw [hkeys] at hx
          simp only [List.mem_append, List.mem_cons] at hx
          rcases hx with hx | hx | hx
          · intro hcon
            rw [hcon] at hx
            simp at hx
          · omega
          · have := har x hx; omega
        have hrne : r ≠ .leaf := by
          obtain ⟨x, hx, hxa⟩ := hhi
          rw [hkeys] at hx
          simp only [List.mem_append, List.mem_cons] at hx
          rcases hx with hx | hx | hx
          · have := hla x hx; omega
          · omega
          · intro hcon
            rw [hcon] at hx
            simp at hx
        refine ⟨l, av, r, hs, hlne, hrne, ?_⟩
        cases l with
        | leaf => exact absurd rfl hlne
        | node a2 b2 c2 d2 =>
            obtain ⟨A, m, mv, hs2, hmmem, hmax⟩ :=
              splay_upper a (.node a2 b2 c2 d2) hbl hla (by simp)
            refine ⟨A, m, mv, hs2, hmmem, hmax, ?_⟩
            rw [removeS_node_eq, hs]
            simp [hs2]

theorem claim3_witness :
    bst (searchS 4 scenarioTree).2 = true ∧
    10 ∈ keysOf (searchS 4 scenarioTree).2 ∧
    bst (removeS 10 (searchS 4 scenarioTree).2) = true :=
  ⟨by decide, by decide,
   (claim3_remove_with_two_children (searchS 4 scenarioTree).2 10
     (by decide) (by decide) (by decide) (by decide)).1⟩

/-- C4: `search(k)` on the empty tree returns absent without splaying; on a
non-empty BST it leaves the splayed tree behind, its result is present
exactly when `k` is in the tree (equivalently, when the new root's key is
`k`), in which case the root node (the whole re-rooted tree) is returned;
otherwise absent is returned and the tree remains rooted at a
nearest-neighbour node (no key lies strictly between the root key and `k`). -/
theorem claim4_search_contract (k : Int) (t : STree) (hb : bst t = true) :
    searchS k .leaf = (none, .leaf) ∧
    (t ≠ .leaf →
      (searchS k t).2 = splayRec k t ∧
      ((searchS k t).1.isSome ↔ k ∈ keysOf t) ∧
      (k ∈ keysOf t → (searchS k t).1 = some (splayRec k t) ∧
        rootKey (splayRec k t) = some k) ∧
      (k ∉ keysOf t → (searchS k t).1 = none ∧
        ∃ a, rootKey (splayRec k t) = some a ∧ a ∈ keysOf t ∧
          ∀ x ∈ keysOf t, ¬(min a k < x ∧ x < max a k))) := by
  refine ⟨rfl, ?_⟩
  intro hne
  cases t with
  | leaf => exact absurd rfl hne
  | node l0 k0 v0 r0 =>
      obtain ⟨l, a, av, r, hs, hfound, hnear⟩ :=
        splay_nearest k _ hb (by simp)
      have hamem : a ∈ keysOf (STree.node l0 k0 v0 r0) := by
        rw [← splay_keysOf k (.node l0 k0 v0 r0), hs]
        exact rootKey_mem l a av r
      have hred : searchS k (.node l0 k0 v0 r0) =
          (if a = k then some (.node l a av r) else none, .node l a av r) := by
        rw [searchS_node_eq, hs]
      refine ⟨?_, ?_, ?_, ?_⟩
      · rw [hred, hs]
      · constructor
        · intro hsome
          by_cases hak : a = k
          · exact hak ▸ hamem
          · rw [hred] at hsome
            simp [hak] at hsome
        · intro hk
          rw [hred]
          simp [hfound hk]
      · intro hk
        have hak : a = k := hfound hk
        subst hak
        rw [hred, hs]
        simp [rootKey]
      · intro hk
        have hak : ¬ a = k := fun h => hk (h ▸ hamem)
        rw [hred]
        exact ⟨by simp [hak], a, by rw [hs]; rfl, hamem, hnear⟩

theorem claim4_witness :
    bst scenarioTree = true ∧ searchS 7 .leaf = (none, .leaf) :=
  ⟨by decide, (claim4_search_contract 7 scenarioTree (by decide)).1⟩

/-- C7 counterexample: inserting an existing key splays it to the root
first, so the tree structure does change. In the three-key scenario tree
(shape 12 → 10 → 4), `insert(4,"z")` leaves shape 4 → 10 → 12. -/
theorem claim7_counterexample :
    4 ∈ keysOf scenarioTree ∧
    stripVals (insertS 4 (.str "z") scenarioTree) ≠ stripVals scenarioTree := by
  decide

/-- C7 amended: for every BST containing `k`, `insert(k,v2)` overwrites only
the value of the existing node, which is first splayed to the root: no node
is created or destroyed, the node count and the key sequence are unchanged,
the shape changes only by the splay (the result's shape equals the splayed
tree's shape), and afterwards exactly one node with key `k` exists and its
value equals `v2`. -/
theorem claim7_update_in_place (t : STree) (k : Int) (v2 : JsVal)
    (hb : bst t = true) (hmem : k ∈ keysOf t) :
    keysOf (insertS k v2 t) = keysOf t ∧
    sizeT (insertS k v2 t) = sizeT t ∧
    stripVals (insertS k v2 t) = stripVals (splayRec k t) ∧
    (toListKV (insertS k v2 t)).filter (fun p => p.1 = k) = [(k, v2)] ∧
    (keysOf (insertS k v2 t)).count k = 1 := by
  cases t with
  | leaf => simp at hmem
  | node l0 k0 v0 r0 =>
      obtain ⟨l, a, av, r, hs, hfound, hnear⟩ :=
        splay_nearest k _ hb (by simp)
      have hak : a = k := hfound hmem
      subst hak
      have hbs : bst (STree.node l a av r) = true := by
        rw [← hs]; exact bst_splayRec a _ hb
      rw [bst_node_iff] at hbs
      obtain ⟨hla, har, hbl, hbr⟩ := hbs
      have hred : insertS a v2 (.node l0 k0 v0 r0) = .node l a v2 r := by
        rw [insertS_node_eq, hs]
        simp
      have hkeys : keysOf (STree.node l0 k0 v0 r0) =
          keysOf l ++ a :: keysOf r := by
        rw [← splay_keysOf a (.node l0 k0 v0 r0), hs, keysOf_node]
      have hlist : toListKV (STree.node l0 k0 v0 r0) =
          toListKV l ++ (a, av) :: toListKV r := by
        rw [← splay_toListKV a (.node l0 k0 v0 r0), hs, toListKV_node]
      have hLne : ∀ p ∈ toListKV l, p.1 ≠ a := by
        intro p hp
        have := hla p.1 (mem_keysOf_toListKV hp); omega
      have hRne : ∀ p ∈ toListKV r, p.1 ≠ a := by
        intro p hp
        have := har p.1 (mem_keysOf_toListKV hp); omega
      refine ⟨?_, ?_, ?_, ?_, ?_⟩
      · rw [hred, keysOf_node, hkeys]
      · rw [hred, sizeT_toListKV, sizeT_toListKV, toListKV_node, hlist]
        simp
      · rw [hred, hs]
        rfl
      · rw [hred, toListKV_node, List.filter_append,
          filter_key_eq_nil hLne, List.filter_cons]
        simp [filter_key_eq_nil hRne]
      · rw [hred, keysOf_node]
        have h1 : (keysOf l).count a = 0 := by
          rw [List.count_eq_zero]
          intro hcon
          have := hla a hcon; omega
        have h2 : (keysOf r).count a = 0 := by
          rw [List.count_eq_zero]
          intro hcon
          have := har a hcon; omega
        rw [List.count_append, h1, List.count_cons_self, h2]

theorem claim7_witness :
    bst scenarioTree = true ∧ 4 ∈ keysOf scenarioTree ∧
    keysOf (insertS 4 (.str "z") scenarioTree) = keysOf scenarioTree :=
  ⟨by decide, by decide,
   (claim7_update_in_place scenarioTree 4 (.str "z") (by decide)
     (by decide)).1⟩

/-- C9: `min()`/`max()` return absent on the empty tree; on a non-empty BST
`min()` (no node supplied) returns the node with the smallest key present
and `max()` the one with the largest; when a node is explicitly supplied the
descent starts there and returns the extremal node of that subtree. Both are
pure descents modelled as functions without tree output: the source performs
no splay and no assignment, so the root cannot change. -/
theorem claim9_min_max (n t : STree) (hb : bst t = true) (hne : t ≠ .leaf) :
    (∀ m : STree, minS m .leaf = none ∧ maxS m .leaf = none) ∧
    (∃ u k', minS .leaf t = some u ∧ rootKey u = some k' ∧ k' ∈ keysOf t ∧
      ∀ x ∈ keysOf t, k' ≤ x) ∧
    (∃ u k', maxS .leaf t = some u ∧ rootKey u = some k' ∧ k' ∈ keysOf t ∧
      ∀ x ∈ keysOf t, x ≤ k') ∧
    (n ≠ .leaf → bst n = true →
      minS n t = some (minRecursive n) ∧ maxS n t = some (maxRecursive n) ∧
      (∃ k', rootKey (minRecursive n) = some k' ∧ k' ∈ keysOf n ∧
        ∀ x ∈ keysOf n, k' ≤ x) ∧
      (∃ k', rootKey (maxRecursive n) = some k' ∧ k' ∈ keysOf n ∧
        ∀ x ∈ keysOf n, x ≤ k')) := by
  refine ⟨fun m => ⟨rfl, rfl⟩, ?_, ?_, ?_⟩
  · cases t with
    | leaf => exact absurd rfl hne
    | node l0 k0 v0 r0 =>
        obtain ⟨k', h1, h2, h3⟩ := minRecursive_spec _ hb (by simp)
        exact ⟨minRecursive (.node l0 k0 v0 r0), k', rfl, h1, h2, h3⟩
  · cases t with
    | leaf => exact absurd rfl hne
    | node l0 k0 v0 r0 =>
        obtain ⟨k', h1, h2, h3⟩ := maxRecursive_spec _ hb (by simp)
        exact ⟨maxRecursive (.node l0 k0 v0 r0), k', rfl, h1, h2, h3⟩
  · intro hn hbn
    cases t with
    | leaf => exact absurd rfl hne
    | node l0 k0 v0 r0 =>
        cases n with
        | leaf => exact absurd rfl hn
        | node a b c d =>
            exact ⟨rfl, rfl, minRecursive_spec _ hbn (by simp),
              maxRecursive_spec _ hbn (by simp)⟩

theorem claim9_witness :
    bst scenarioTree = true ∧ scenarioTree ≠ .leaf ∧
    minS .leaf .leaf = none :=
  ⟨by decide, by decide,
   ((claim9_min_max .leaf scenarioTree (by decide) (by decide)).1 .leaf).1⟩

/-- C10: for every sequence of insert/remove operations with valid scalar
keys and values applied from the empty tree, the splay-tree variant
(`SplayBst` in `src/js/splay.js`) and the plain-BST draft variant
(`splayBst` in `src/unnamed/part_000`) yield trees whose in-order
(key, value) sequences are identical. -/
theorem claim10_variant_equivalence (ops : List Op)
    (hv : ∀ op ∈ ops, opValid op = true) :
    toListKV (runS ops) = toListKV (runP ops) :=
  runSP_foldl ops .leaf .leaf rfl rfl rfl hv

theorem claim10_witness :
    (∀ op ∈ ([.ins 10 (.str "a"), .ins 4 (.str "b"), .ins 12 (.str "c"),
        .del 10] : List Op), opValid op = true) ∧
    toListKV (runS [.ins 10 (.str "a"), .ins 4 (.str "b"),
        .ins 12 (.str "c"), .del 10]) =
      toListKV (runP [.ins 10 (.str "a"), .ins 4 (.str "b"),
        .ins 12 (.str "c"), .del 10]) :=
  ⟨by decide, claim10_variant_equivalence _ (by decide)⟩

end STree

